import Mathlib

/-
Shallow embedding of the `synom` parser combinator core
(src/synom/src/lib.rs).  The source works over a `&'a str` with a byte
index; here the buffer is modelled as its list of codepoints and the
index counts codepoints, which is the same arithmetic in codepoint
units (the spec's input contract is "indexable-by-codepoint slicing").
Rust panics (`assert!`, `panic!`) are modelled explicitly: the checked
variant of `advance` returns `Option` and `IResult.expect` returns
`Except` with a structured panic message.
-/

namespace Synom

/-- A wrapper around the source string which keeps track of the current
index into it (`ParseState` in src/synom/src/lib.rs). -/
structure ParseState where
  input : List Char
  index : Nat
deriving DecidableEq, Repr

/-- The unconsumed suffix of the input (`ParseState::rest`). -/
def ParseState.rest (s : ParseState) : List Char :=
  s.input.drop s.index

/-- Whether the unconsumed suffix is empty (`ParseState::is_empty`). -/
def ParseState.is_empty (s : ParseState) : Bool :=
  s.rest.isEmpty

/-- The length of the unconsumed suffix (`ParseState::len`). -/
def ParseState.len (s : ParseState) : Nat :=
  s.rest.length

/-- Whether the unconsumed suffix starts with `p` (`ParseState::starts_with`). -/
def ParseState.starts_with (s : ParseState) (p : List Char) : Bool :=
  p.isPrefixOf s.rest

/-- The first `i` units of the unconsumed suffix (`ParseState::until`). -/
def ParseState.until (s : ParseState) (i : Nat) : List Char :=
  s.rest.take i

/-- Advancing the cursor after the assertion `index <= input.len()` has
passed (`ParseState::advance`, lines 63-70 of the source). -/
def ParseState.advance (s : ParseState) (i : Nat) : ParseState :=
  ⟨s.input, i + s.index⟩

/-- `ParseState::advance` with its `assert!(index <= self.input.len())`
made explicit: `none` models the panic of a failed assertion, which is
*not* an `IResult` and so can never be mistaken for a parse failure. -/
def ParseState.advanceChecked (s : ParseState) (i : Nat) : Option ParseState :=
  if i + s.index ≤ s.input.length then some (s.advance i) else none

/-- A cursor positioned at the end of the input (`ParseState::finish`). -/
def ParseState.finish (s : ParseState) : ParseState :=
  ⟨s.input, s.input.length⟩

/-- The current index (`ParseState::idx`). -/
def ParseState.idx (s : ParseState) : Nat :=
  s.index

/-- The result of a parser (`IResult` in the source): `Done` carries the
rest of the unparsed data and the parse result, `Error` carries nothing. -/
inductive IResult (α : Type) where
  | Done : ParseState → α → IResult α
  | Error : IResult α
deriving DecidableEq, Repr

/-- A combinator is a pure function from cursor to result (spec §3). -/
def Combinator (α : Type) : Type :=
  ParseState → IResult α

/-- The `tag!` macro (lines 626-634). -/
def tag (t : List Char) : Combinator (List Char) := fun i =>
  if i.starts_with t then IResult.Done (i.advance t.length) (i.until t.length)
  else IResult.Error

/-- The offset computed by the scan loop of `take_while1!`: the index of
the first character not satisfying `p`, defaulting to the length of the
list when every character satisfies it. -/
def take_while1_offset (p : Char → Bool) : List Char → Nat
  | [] => 0
  | c :: cs => if p c then take_while1_offset p cs + 1 else 0

/-- The `take_while1!` macro (lines 567-589). -/
def take_while1 (p : Char → Bool) : Combinator (List Char) := fun input =>
  let offset := take_while1_offset p input.rest
  if offset = 0 then IResult.Error
  else if offset < input.len then IResult.Done (input.advance offset) (input.until offset)
  else IResult.Done input.finish input.rest

/-- The window update of `take_until!`'s scan loop: `window.push(c)`
followed by `window.remove(0)` when the window has grown past the length
of the literal (lines 602-605). -/
def pushWindow (sub window : List Char) (c : Char) : List Char :=
  let w1 := window ++ [c]
  if sub.length < w1.length then w1.drop 1 else w1

/-- The sliding-window scan loop of `take_until!` (lines 601-615):
`window` is the current window, the remaining characters are scanned one
by one with `o` the index of the next character; the result is the
offset of the first occurrence found (`o` minus the popped window's
length), `none` when the scan runs out. -/
def tuScan (sub : List Char) : List Char → List Char → Nat → Option Nat
  | _, [], _ => none
  | window, c :: cs, o =>
    if pushWindow sub window c = sub then
      some (o - (pushWindow sub window c).dropLast.length)
    else tuScan sub (pushWindow sub window c) cs (o + 1)

/-- The `take_until!` macro (lines 591-623). -/
def take_until (sub : List Char) : Combinator (List Char) := fun input =>
  if input.len < sub.length then IResult.Error
  else
    match tuScan sub [] input.rest 0 with
    | some offset => IResult.Done (input.advance offset) (input.until offset)
    | none => IResult.Error

/-- The `not!` macro (lines 257-265): negative lookahead. -/
def not (f : Combinator α) : Combinator (List Char) := fun i =>
  match f i with
  | IResult.Done _ _ => IResult.Error
  | IResult.Error => IResult.Done i []

/-- The `peek!` macro (lines 557-565). -/
def peek (f : Combinator α) : Combinator α := fun i =>
  match f i with
  | IResult.Done _ o => IResult.Done i o
  | IResult.Error => IResult.Error

/-- The `cond!` macro (lines 292-308). -/
def cond (c : Bool) (f : Combinator α) : Combinator (Option α) := fun i =>
  if c then
    match f i with
    | IResult.Done i2 o => IResult.Done i2 (some o)
    | IResult.Error => IResult.Error
  else IResult.Done i none

/-- The `cond_reduce!` macro (lines 330-343). -/
def cond_reduce (c : Bool) (f : Combinator α) : Combinator α := fun i =>
  if c then f i else IResult.Error

/-- The `value!` macro (lines 651-656). -/
def value (v : α) : Combinator α := fun i =>
  IResult.Done i v

/-- The `map!` macro (lines 211-234). -/
def map (f : Combinator α) (g : α → β) : Combinator β := fun i =>
  match f i with
  | IResult.Error => IResult.Error
  | IResult.Done i2 o => IResult.Done i2 (g o)

/-- The two-combinator instance of the `tuple!` macro (lines 798-847). -/
def tuple2 (f : Combinator α) (g : Combinator β) : Combinator (α × β) := fun i =>
  match f i with
  | IResult.Error => IResult.Error
  | IResult.Done i1 o1 =>
    match g i1 with
    | IResult.Error => IResult.Error
    | IResult.Done i2 o2 => IResult.Done i2 (o1, o2)

/-- The three-combinator instance of the `tuple!` macro. -/
def tuple3 (f : Combinator α) (g : Combinator β) (h : Combinator γ) :
    Combinator (α × β × γ) := fun i =>
  match f i with
  | IResult.Error => IResult.Error
  | IResult.Done i1 o1 =>
    match tuple2 g h i1 with
    | IResult.Error => IResult.Error
    | IResult.Done i2 (o2, o3) => IResult.Done i2 (o1, o2, o3)

/-- The `preceded!` macro (lines 371-391). -/
def preceded (f : Combinator α) (g : Combinator β) : Combinator β := fun i =>
  match tuple2 f g i with
  | IResult.Done remaining (_, o) => IResult.Done remaining o
  | IResult.Error => IResult.Error

/-- The `terminated!` macro (lines 419-439). -/
def terminated (f : Combinator α) (g : Combinator β) : Combinator α := fun i =>
  match tuple2 f g i with
  | IResult.Done remaining (o, _) => IResult.Done remaining o
  | IResult.Error => IResult.Error

/-- The `delimited!` macro (lines 685-697). -/
def delimited (f : Combinator α) (g : Combinator β) (h : Combinator γ) :
    Combinator β := fun i =>
  match tuple3 f g h i with
  | IResult.Error => IResult.Error
  | IResult.Done i1 (_, o, _) => IResult.Done i1 o

/-- The loop of `many0` (lines 504-529), with explicit fuel: `none`
models a loop that is still running after `fuel` iterations, so the Rust
loop terminates on `input` exactly when some fuel yields `some`. -/
def many0F (f : Combinator α) : Nat → ParseState → List α → Option (IResult (List α))
  | 0, _, _ => none
  | fuel + 1, input, res =>
    if input.is_empty then some (IResult.Done input res)
    else
      match f input with
      | IResult.Error => some (IResult.Done input res)
      | IResult.Done i o =>
        if i.len = input.len then some IResult.Error
        else many0F f fuel i (res ++ [o])

/-- The `many0` function (lines 504-529).  The fuel `len + 1` is enough
for every combinator whose successes never enlarge the remaining input. -/
def many0 (f : Combinator α) (i : ParseState) : IResult (List α) :=
  (many0F f (i.len + 1) i []).getD IResult.Error

/-- The `while let` loop of `separated_nonempty_list!` (lines 742-756),
with explicit fuel: `none` models a loop still running after `fuel`
iterations.  All three `break`s return the pre-separator cursor. -/
def sepLoop (sep : Combinator β) (f : Combinator α) :
    Nat → ParseState → List α → Option (ParseState × List α)
  | 0, _, _ => none
  | fuel + 1, input, res =>
    match sep input with
    | IResult.Error => some (input, res)
    | IResult.Done i2 _ =>
      if i2.len = input.len then some (input, res)
      else
        match f i2 with
        | IResult.Error => some (input, res)
        | IResult.Done i3 o3 =>
          if i3.len = i2.len then some (input, res)
          else sepLoop sep f fuel i3 (res ++ [o3])

/-- The `separated_nonempty_list!` macro (lines 727-761) before fuel is
fixed: first element, non-advancement check, then the loop. -/
def separated_nonempty_listF (sep : Combinator β) (f : Combinator α)
    (fuel : Nat) (i0 : ParseState) : Option (IResult (List α)) :=
  match f i0 with
  | IResult.Error => some IResult.Error
  | IResult.Done i o =>
    if i.len = i0.len then some IResult.Error
    else (sepLoop sep f fuel i [o]).map fun r => IResult.Done r.1 r.2

/-- The `separated_nonempty_list!` macro (lines 727-761). -/
def separated_nonempty_list (sep : Combinator β) (f : Combinator α)
    (i0 : ParseState) : IResult (List α) :=
  (separated_nonempty_listF sep f (i0.len + 1) i0).getD IResult.Error

/-- The `alt!` macro (lines 876-917) over a list of branches, each
branch already carrying its optional per-branch transform (a transformed
branch is `map f gen`, exactly the expansion of `SUB => { GEN }`). -/
def altList : List (Combinator α) → Combinator α
  | [], _ => IResult.Error
  | f :: fs, s =>
    match f s with
    | IResult.Done i o => IResult.Done i o
    | IResult.Error => altList fs s

/-- A structured panic message, modelling the `panic!` calls of
`IResult::expect` (lines 103-115): the message names the parser and, for
unparsed tokens, the unparsed remainder. -/
inductive ParsePanic where
  | unparsedTokensAfter (name : List Char) (remainder : List Char)
  | failedToParse (name : List Char)
deriving DecidableEq, Repr

/-- Modelled from the spec: the helper `dropLineComment` consumes the
body of a `//` line comment up to and including the newline. -/
def dropLineComment : List Char → List Char
  | [] => []
  | c :: cs => if c = '\n' then cs else dropLineComment cs

/-- Modelled from the spec: the helper `dropBlockComment` consumes the
body of a `/*` block comment up to and including the closing `*/`. -/
def dropBlockComment : List Char → List Char
  | '*' :: '/' :: cs => cs
  | _ :: cs => dropBlockComment cs
  | [] => []

/-- Modelled from the spec: the recursive skipping loop behind
`space::skip_whitespace` (src/synom/src/space.rs, which is not among
the sources).  Per spec §4.3 it removes any leading run of whitespace
and of line and block comments, recursively, and never fails.  Each
step consumes at least one character, so fuel `length + 1` is enough. -/
def skipWsAux : Nat → List Char → List Char
  | 0, l => l
  | fuel + 1, l =>
    match l with
    | [] => []
    | c :: cs =>
      if c.isWhitespace then skipWsAux fuel cs
      else
        match l with
        | '/' :: '/' :: rest2 => skipWsAux fuel (dropLineComment rest2)
        | '/' :: '*' :: rest2 => skipWsAux fuel (dropBlockComment rest2)
        | _ => l

/-- Modelled from the spec: `space::skip_whitespace` (src/synom/src/space.rs
is not among the sources).  Per spec §4.3 it advances the cursor past any
leading run of whitespace and comments, recursively, never fails, and
returns a cursor, possibly unchanged. -/
def skip_whitespace (s : ParseState) : ParseState :=
  s.advance (s.rest.length - (skipWsAux (s.rest.length + 1) s.rest).length)

/-- `IResult::expect` (lines 103-115): the source rebinds `rest` to
`space::skip_whitespace(rest)` and branches on emptiness; the Rust
`panic!`s are modelled as `Except.error` carrying the structured panic
message. -/
def IResult.expect (r : IResult α) (name : List Char) : Except ParsePanic α :=
  match r with
  | IResult.Done rest o =>
    if (skip_whitespace rest).is_empty then Except.ok o
    else Except.error (ParsePanic.unparsedTokensAfter name (skip_whitespace rest).rest)
  | IResult.Error => Except.error (ParsePanic.failedToParse name)

/-- Monotonic advancement (spec §8): on success the offset never
decreases and the remaining length never increases. -/
def Mono (f : Combinator α) : Prop :=
  ∀ s i o, f s = IResult.Done i o → s.index ≤ i.index ∧ i.len ≤ s.len

/-- The index of the first occurrence of `sub` as a contiguous
subsequence, written as the naive search the window scan implements. -/
def findSub (sub : List Char) : List Char → Option Nat
  | [] => none
  | c :: cs =>
    if sub.isPrefixOf (c :: cs) then some 0
    else (findSub sub cs).map (· + 1)

/-- An inner combinator whose successes alternate between two buffers of
different lengths: every success changes the remaining length, so the
non-advancement guard of `many0` never fires, yet no iteration shrinks
the remaining input for good. -/
def cycF : Combinator Unit := fun s =>
  if s.len = 1 then IResult.Done ⟨['a', 'b'], 0⟩ ()
  else IResult.Done ⟨['a'], 0⟩ ()

theorem len_eq (s : ParseState) : s.len = s.input.length - s.index := by
  simp [ParseState.len, ParseState.rest]

theorem rest_advance (s : ParseState) (k : Nat) :
    (s.advance k).rest = s.rest.drop k := by
  simp [ParseState.advance, ParseState.rest, List.drop_drop, Nat.add_comm]

theorem mono_advance (s : ParseState) (k : Nat) :
    s.index ≤ (s.advance k).index ∧ (s.advance k).len ≤ s.len := by
  refine ⟨by simp [ParseState.advance], ?_⟩
  simp only [ParseState.len, rest_advance, List.length_drop]
  omega

theorem mono_tag (t : List Char) : Mono (tag t) := by
  intro s i o h
  unfold tag at h
  split at h
  · cases h
    exact mono_advance s t.length
  · simp at h

theorem mono_take_while1 (p : Char → Bool) : Mono (take_while1 p) := by
  intro s i o h
  unfold take_while1 at h
  simp only at h
  split at h
  · simp at h
  · split at h
    · cases h
      exact mono_advance s _
    · cases h
      rename_i h0 hlen
      have hr : s.rest ≠ [] := fun he => h0 (by rw [he]; rfl)
      have hidx : s.index < s.input.length := by
        by_contra hle
        exact hr (List.drop_eq_nil_iff.mpr (by omega))
      refine ⟨by simp only [ParseState.finish]; omega, ?_⟩
      simp [ParseState.len, ParseState.finish, ParseState.rest]

theorem mono_take_until (t : List Char) : Mono (take_until t) := by
  intro s i o h
  unfold take_until at h
  split at h
  · simp at h
  · split at h
    · cases h
      exact mono_advance s _
    · simp at h

theorem mono_not (f : Combinator α) : Mono (not f) := by
  intro s i o h
  unfold Synom.not at h
  split at h
  · simp at h
  · cases h
    exact ⟨Nat.le_refl _, Nat.le_refl _⟩

theorem mono_peek (f : Combinator α) : Mono (peek f) := by
  intro s i o h
  unfold peek at h
  split at h
  · cases h
    exact ⟨Nat.le_refl _, Nat.le_refl _⟩
  · simp at h

theorem mono_value (v : α) : Mono (value v) := by
  intro s i o h
  cases h
  exact ⟨Nat.le_refl _, Nat.le_refl _⟩

theorem mono_cond (c : Bool) (f : Combinator α) (hf : Mono f) : Mono (cond c f) := by
  intro s i o h
  unfold cond at h
  split at h
  · split at h
    · cases h
      rename_i heq
      exact hf _ _ _ heq
    · simp at h
  · cases h
    exact ⟨Nat.le_refl _, Nat.le_refl _⟩

theorem mono_cond_reduce (c : Bool) (f : Combinator α) (hf : Mono f) :
    Mono (cond_reduce c f) := by
  intro s i o h
  unfold cond_reduce at h
  split at h
  · exact hf _ _ _ h
  · simp at h

theorem mono_map (f : Combinator α) (g : α → β) (hf : Mono f) : Mono (map f g) := by
  intro s i o h
  unfold map at h
  split at h
  · simp at h
  · cases h
    rename_i heq
    exact hf _ _ _ heq

theorem mono_tuple2 {f : Combinator α} {g : Combinator β}
    (hf : Mono f) (hg : Mono g) : Mono (tuple2 f g) := by
  intro s i o h
  unfold tuple2 at h
  split at h
  · simp at h
  · rename_i i1 o1 heq1
    split at h
    · simp at h
    · rename_i i2 o2 heq2
      cases h
      obtain ⟨ha1, hb1⟩ := hf _ _ _ heq1
      obtain ⟨ha2, hb2⟩ := hg _ _ _ heq2
      exact ⟨Nat.le_trans ha1 ha2, Nat.le_trans hb2 hb1⟩

theorem mono_tuple3 {f : Combinator α} {g : Combinator β} {h : Combinator γ}
    (hf : Mono f) (hg : Mono g) (hh : Mono h) : Mono (tuple3 f g h) := by
  intro s i o hdone
  unfold tuple3 at hdone
  split at hdone
  · simp at hdone
  · rename_i i1 o1 heq1
    split at hdone
    · simp at hdone
    · rename_i i2 o2 o3 heq2
      cases hdone
      obtain ⟨ha1, hb1⟩ := hf _ _ _ heq1
      obtain ⟨ha2, hb2⟩ := mono_tuple2 hg hh _ _ _ heq2
      exact ⟨Nat.le_trans ha1 ha2, Nat.le_trans hb2 hb1⟩

theorem mono_preceded {f : Combinator α} {g : Combinator β}
    (hf : Mono f) (hg : Mono g) : Mono (preceded f g) := by
  intro s i o h
  unfold preceded at h
  split at h
  · rename_i o2 heq
    cases h
    exact mono_tuple2 hf hg _ _ _ heq
  · simp at h

theorem mono_terminated {f : Combinator α} {g : Combinator β}
    (hf : Mono f) (hg : Mono g) : Mono (terminated f g) := by
  intro s i o h
  unfold terminated at h
  split at h
  · rename_i o2 heq
    cases h
    exact mono_tuple2 hf hg _ _ _ heq
  · simp at h

theorem mono_delimited {f : Combinator α} {g : Combinator β} {h : Combinator γ}
    (hf : Mono f) (hg : Mono g) (hh : Mono h) : Mono (delimited f g h) := by
  intro s i o hdone
  unfold delimited at hdone
  split at hdone
  · simp at hdone
  · rename_i i1 o1 o2 o3 heq
    cases hdone
    exact mono_tuple3 hf hg hh _ _ _ heq

theorem mono_altList {fs : List (Combinator α)} (hfs : ∀ f ∈ fs, Mono f) :
    Mono (altList fs) := by
  induction fs with
  | nil =>
    intro s i o h
    simp [altList] at h
  | cons f fs ih =>
    intro s i o h
    simp only [altList] at h
    split at h
    · rename_i i1 o1 heq
      cases h
      exact hfs f (List.mem_cons_self f fs) _ _ _ heq
    · exact ih (fun g hg => hfs g (List.mem_cons_of_mem f hg)) _ _ _ h

theorem many0F_done_mono {f : Combinator α} (hf : Mono f) :
    ∀ (fuel : Nat) (s : ParseState) (res : List α) (i : ParseState) (res2 : List α),
      many0F f fuel s res = some (IResult.Done i res2) →
      s.index ≤ i.index ∧ i.len ≤ s.len := by
  intro fuel
  induction fuel with
  | zero =>
    intro s res i res2 h
    simp [many0F] at h
  | succ n ih =>
    intro s res i res2 h
    simp only [many0F] at h
    split at h
    · simp only [Option.some.injEq, IResult.Done.injEq] at h
      obtain ⟨rfl, rfl⟩ := h
      exact ⟨Nat.le_refl _, Nat.le_refl _⟩
    · split at h
      · simp only [Option.some.injEq, IResult.Done.injEq] at h
        obtain ⟨rfl, rfl⟩ := h
        exact ⟨Nat.le_refl _, Nat.le_refl _⟩
      · rename_i i1 o1 heq
        split at h
        · simp at h
        · have h1 := hf _ _ _ heq
          have h2 := ih i1 (res ++ [o1]) i res2 h
          exact ⟨Nat.le_trans h1.1 h2.1, Nat.le_trans h2.2 h1.2⟩

theorem mono_many0 {f : Combinator α} (hf : Mono f) : Mono (many0 f) := by
  intro s i o h
  unfold many0 at h
  cases hm : many0F f (s.len + 1) s [] with
  | none => rw [hm] at h; simp at h
  | some r =>
    rw [hm] at h
    simp only [Option.getD_some] at h
    subst h
    exact many0F_done_mono hf _ _ _ _ _ hm

theorem many0F_isSome {f : Combinator α}
    (hf : ∀ s i o, f s = IResult.Done i o → i.len ≤ s.len) :
    ∀ (fuel : Nat) (s : ParseState) (res : List α),
      s.len < fuel → (many0F f fuel s res).isSome = true := by
  intro fuel
  induction fuel with
  | zero => intro s res h; omega
  | succ n ih =>
    intro s res h
    simp only [many0F]
    split
    · simp
    · split
      · simp
      · rename_i i1 o1 heq
        split
        · simp
        · rename_i hne
          exact ih i1 (res ++ [o1]) (by have := hf _ _ _ heq; omega)

theorem sepLoop_some_mono {sep : Combinator β} {f : Combinator α}
    (hsep : Mono sep) (hf : Mono f) :
    ∀ (fuel : Nat) (input : ParseState) (res : List α) (i2 : ParseState) (res2 : List α),
      sepLoop sep f fuel input res = some (i2, res2) →
      input.index ≤ i2.index ∧ i2.len ≤ input.len := by
  intro fuel
  induction fuel with
  | zero =>
    intro input res i2 res2 h
    simp [sepLoop] at h
  | succ n ih =>
    intro input res i2 res2 h
    simp only [sepLoop] at h
    split at h
    · simp only [Option.some.injEq, Prod.mk.injEq] at h
      obtain ⟨rfl, rfl⟩ := h
      exact ⟨Nat.le_refl _, Nat.le_refl _⟩
    · rename_i is2 b hseq
      split at h
      · simp only [Option.some.injEq, Prod.mk.injEq] at h
        obtain ⟨rfl, rfl⟩ := h
        exact ⟨Nat.le_refl _, Nat.le_refl _⟩
      · split at h
        · simp only [Option.some.injEq, Prod.mk.injEq] at h
          obtain ⟨rfl, rfl⟩ := h
          exact ⟨Nat.le_refl _, Nat.le_refl _⟩
        · rename_i i3 o3 hfeq
          split at h
          · simp only [Option.some.injEq, Prod.mk.injEq] at h
            obtain ⟨rfl, rfl⟩ := h
            exact ⟨Nat.le_refl _, Nat.le_refl _⟩
          · have hs := hsep _ _ _ hseq
            have hfm := hf _ _ _ hfeq
            have h3 := ih i3 (res ++ [o3]) i2 res2 h
            exact ⟨Nat.le_trans hs.1 (Nat.le_trans hfm.1 h3.1),
                   Nat.le_trans h3.2 (Nat.le_trans hfm.2 hs.2)⟩

theorem sepLoop_some_length {sep : Combinator β} {f : Combinator α} :
    ∀ (fuel : Nat) (input : ParseState) (res : List α) (i2 : ParseState) (res2 : List α),
      sepLoop sep f fuel input res = some (i2, res2) → res.length ≤ res2.length := by
  intro fuel
  induction fuel with
  | zero =>
    intro input res i2 res2 h
    simp [sepLoop] at h
  | succ n ih =>
    intro input res i2 res2 h
    simp only [sepLoop] at h
    split at h
    · simp only [Option.some.injEq, Prod.mk.injEq] at h
      obtain ⟨rfl, rfl⟩ := h
      exact Nat.le_refl _
    · split at h
      · simp only [Option.some.injEq, Prod.mk.injEq] at h
        obtain ⟨rfl, rfl⟩ := h
        exact Nat.le_refl _
      · split at h
        · simp only [Option.some.injEq, Prod.mk.injEq] at h
          obtain ⟨rfl, rfl⟩ := h
          exact Nat.le_refl _
        · rename_i i3 o3 hfeq
          split at h
          · simp only [Option.some.injEq, Prod.mk.injEq] at h
            obtain ⟨rfl, rfl⟩ := h
            exact Nat.le_refl _
          · have := ih i3 (res ++ [o3]) i2 res2 h
            simp only [List.length_append, List.length_cons, List.length_nil] at this
            omega

theorem sepLoop_isSome {sep : Combinator β} {f : Combinator α}
    (hsep : Mono sep) (hf : Mono f) :
    ∀ (fuel : Nat) (input : ParseState) (res : List α),
      input.len < fuel → (sepLoop sep f fuel input res).isSome = true := by
  intro fuel
  induction fuel with
  | zero => intro input res h; omega
  | succ n ih =>
    intro input res h
    simp only [sepLoop]
    split
    · simp
    · rename_i i2 b hseq
      split
      · simp
      · rename_i hne2
        split
        · simp
        · rename_i i3 o3 hfeq
          split
          · simp
          · rename_i hne3
            exact ih i3 (res ++ [o3])
              (by have h2 := hsep _ _ _ hseq; have h3 := hf _ _ _ hfeq; omega)

theorem mono_separated_nonempty_list {sep : Combinator β} {f : Combinator α}
    (hsep : Mono sep) (hf : Mono f) : Mono (separated_nonempty_list sep f) := by
  intro s i o h
  unfold separated_nonempty_list separated_nonempty_listF at h
  split at h
  · simp at h
  · rename_i i1 o1 heq
    split at h
    · simp at h
    · cases hm : sepLoop sep f (s.len + 1) i1 [o1] with
      | none => rw [hm] at h; simp at h
      | some r =>
        rw [hm] at h
        simp only [Option.map_some', Option.getD_some] at h
        have h1 := hf _ _ _ heq
        have h2 := sepLoop_some_mono hsep hf _ _ _ _ _ hm
        cases h
        exact ⟨Nat.le_trans h1.1 h2.1, Nat.le_trans h2.2 h1.2⟩

theorem pushWindow_small {sub w : List Char} (c : Char) (h : w.length < sub.length) :
    pushWindow sub w c = w ++ [c] := by
  simp only [pushWindow]
  rw [if_neg (by simp only [List.length_append, List.length_cons, List.length_nil]; omega)]

theorem pushWindow_full {sub : List Char} {d : Char} {w' : List Char} (c : Char)
    (h : (d :: w').length = sub.length) :
    pushWindow sub (d :: w') c = w' ++ [c] := by
  simp only [pushWindow]
  rw [if_pos (by simp only [List.length_append, List.length_cons] at h ⊢; omega)]
  rfl

theorem isPrefixOf_eq_true_iff {l₁ l₂ : List Char} :
    l₁.isPrefixOf l₂ = true ↔ l₁ <+: l₂ :=
  List.isPrefixOf_iff_prefix

theorem take_of_isPrefixOf {l₁ l₂ : List Char} (h : l₁.isPrefixOf l₂ = true) :
    l₁ = l₂.take l₁.length :=
  List.prefix_iff_eq_take.mp (isPrefixOf_eq_true_iff.mp h)

theorem isPrefixOf_append_self (l t : List Char) : l.isPrefixOf (l ++ t) = true :=
  isPrefixOf_eq_true_iff.mpr
    ( List.prefix_append l t)

theorem findSub_cons (sub : List Char) (c : Char) (cs : List Char) :
    findSub sub (c :: cs) =
      if sub.isPrefixOf (c :: cs) then some 0 else (findSub sub cs).map (· + 1) := rfl

theorem findSub_self_append {sub : List Char} (hs : sub ≠ []) (t : List Char) :
    findSub sub (sub ++ t) = some 0 := by
  cases sub with
  | nil => exact absurd rfl hs
  | cons e su =>
    have hp : (e :: su).isPrefixOf (e :: (su ++ t)) = true :=
      isPrefixOf_append_self (e :: su) t
    show findSub (e :: su) (e :: (su ++ t)) = some 0
    rw [findSub_cons, if_pos hp]

theorem eq_of_isPrefixOf_append {sub w x : List Char}
    (hp : sub.isPrefixOf (w ++ x) = true) (hl : w.length = sub.length) : sub = w := by
  have h := take_of_isPrefixOf hp
  rw [← hl, List.take_left] at h
  exact h

theorem findSub_short {sub : List Char} :
    ∀ w : List Char, w.length ≤ sub.length → (w.length = sub.length → w ≠ sub) →
      findSub sub w = none := by
  intro w
  induction w with
  | nil => intro _ _; rfl
  | cons c cs ih =>
    intro h1 h2
    simp only [List.length_cons] at h1
    have hnp : ¬ (sub.isPrefixOf (c :: cs) = true) := by
      intro hp
      have hpre := isPrefixOf_eq_true_iff.mp hp
      have hle := hpre.length_le
      simp only [List.length_cons] at hle
      have heq : sub = c :: cs := hpre.eq_of_length (by simp only [List.length_cons]; omega)
      exact h2 (by simp only [List.length_cons]; omega) heq.symm
    rw [findSub_cons, if_neg hnp,
        ih (by omega) (fun he => absurd he (by omega))]
    rfl

theorem tuScan_eq_findSub {sub : List Char} (hs : sub ≠ []) :
    ∀ (cs w : List Char) (o : Nat),
      w.length = min o sub.length →
      (w.length = sub.length → w ≠ sub) →
      tuScan sub w cs o = (findSub sub (w ++ cs)).map (· + (o - w.length)) := by
  intro cs
  induction cs with
  | nil =>
    intro w o h1 h2
    rw [List.append_nil,
        findSub_short w (le_of_eq_of_le h1 (Nat.min_le_right o sub.length)) h2]
    rfl
  | cons c cs ih =>
    intro w o h1 h2
    have hsl : 0 < sub.length := List.length_pos.mpr hs
    have hwle : w.length ≤ sub.length := le_of_eq_of_le h1 (Nat.min_le_right o sub.length)
    rcases Nat.lt_or_ge w.length sub.length with hlt | hge
    · -- the window is still growing
      have ho : w.length = o := by
        by_cases hc : o ≤ sub.length
        · rwa [Nat.min_eq_left hc] at h1
        · rw [Nat.min_eq_right (by omega)] at h1; omega
      have hpw : pushWindow sub w c = w ++ [c] := pushWindow_small c hlt
      have hconsapp : w ++ c :: cs = (w ++ [c]) ++ cs := List.append_cons w c cs
      simp only [tuScan, hpw]
      by_cases hmatch : w ++ [c] = sub
      · have hr : findSub sub (w ++ c :: cs) = some 0 := by
          rw [hconsapp, hmatch, findSub_self_append hs]
        rw [if_pos hmatch, hr]
        simp only [List.dropLast_concat, Option.map_some', Option.some.injEq]
        omega
      · rw [if_neg hmatch,
            ih (w ++ [c]) (o + 1)
              (by simp only [List.length_append, List.length_cons, List.length_nil]
                  rw [Nat.min_eq_left (by omega)]
                  omega)
              (fun _ => hmatch),
            hconsapp]
        cases hfs : findSub sub ((w ++ [c]) ++ cs) with
        | none => rfl
        | some q =>
          simp only [Option.map_some', Option.some.injEq, List.length_append,
                     List.length_cons, List.length_nil]
          omega
    · -- the window is full and slides
      have hwl : w.length = sub.length := Nat.le_antisymm hwle hge
      have hosub : sub.length ≤ o := by
        have := Nat.min_le_left o sub.length
        omega
      obtain ⟨d, w', rfl⟩ : ∃ d w', w = d :: w' := by
        cases w with
        | nil => simp at hwl; omega
        | cons d w' => exact ⟨d, w', rfl⟩
      simp only [List.length_cons] at hwl
      have hpw : pushWindow sub (d :: w') c = w' ++ [c] :=
        pushWindow_full c (by simp only [List.length_cons]; omega)
      have hnp : ¬ (sub.isPrefixOf (d :: (w' ++ (c :: cs))) = true) := by
        intro hp
        have : sub = d :: w' :=
          eq_of_isPrefixOf_append (w := d :: w') (x := c :: cs) hp
            (by simp only [List.length_cons]; omega)
        exact (h2 (by simp only [List.length_cons]; omega)) this.symm
      have hrhs : findSub sub ((d :: w') ++ (c :: cs))
          = (findSub sub ((w' ++ [c]) ++ cs)).map (· + 1) := by
        show findSub sub (d :: (w' ++ (c :: cs))) = _
        rw [findSub_cons, if_neg hnp, List.append_cons]
      simp only [tuScan, hpw]
      by_cases hmatch : w' ++ [c] = sub
      · have hfsv : findSub sub ((w' ++ [c]) ++ cs) = some 0 := by
          rw [hmatch, findSub_self_append hs]
        rw [if_pos hmatch, hrhs, hfsv]
        simp only [List.dropLast_concat, Option.map_some', Option.some.injEq,
                   List.length_cons]
        omega
      · rw [if_neg hmatch,
            ih (w' ++ [c]) (o + 1)
              (by simp only [List.length_append, List.length_cons, List.length_nil]
                  rw [Nat.min_eq_right (by omega)]
                  omega)
              (fun _ => hmatch),
            hrhs]
        cases hfs : findSub sub ((w' ++ [c]) ++ cs) with
        | none => rfl
        | some q =>
          simp only [Option.map_some', Option.some.injEq, List.length_append,
                     List.length_cons, List.length_nil]
          omega

theorem tuScan_findSub (sub l : List Char) : tuScan sub [] l 0 = findSub sub l := by
  rcases eq_or_ne sub [] with rfl | hs
  · cases l with
    | nil => rfl
    | cons c cs => rfl
  · rw [tuScan_eq_findSub hs l [] 0
          (by simp [Nat.min_eq_left (Nat.zero_le _)])
          (fun _ => Ne.symm hs),
        List.nil_append]
    cases hfs : findSub sub l with
    | none => rfl
    | some q => simp

theorem findSub_some_le {sub l : List Char} {j : Nat} (h : findSub sub l = some j) :
    sub.length + j ≤ l.length := by
  induction l generalizing j with
  | nil => simp [findSub] at h
  | cons c cs ih =>
    rw [findSub_cons] at h
    split at h
    · rename_i hp
      have hle := (isPrefixOf_eq_true_iff.mp hp).length_le
      simp only [Option.some.injEq] at h
      simp only [List.length_cons] at hle ⊢
      omega
    · cases hq : findSub sub cs with
      | none => rw [hq] at h; simp at h
      | some q =>
        rw [hq] at h
        simp only [Option.map_some', Option.some.injEq] at h
        have := ih hq
        simp only [List.length_cons]
        omega

theorem findSub_some_correct {sub l : List Char} {j : Nat} (h : findSub sub l = some j) :
    sub.isPrefixOf (l.drop j) = true ∧
      ∀ k, k < j → ¬ sub.isPrefixOf (l.drop k) = true := by
  induction l generalizing j with
  | nil => simp [findSub] at h
  | cons c cs ih =>
    rw [findSub_cons] at h
    split at h
    · rename_i hp
      simp only [Option.some.injEq] at h
      obtain rfl : j = 0 := h.symm
      exact ⟨hp, fun k hk => absurd hk (by omega)⟩
    · rename_i hp
      cases hq : findSub sub cs with
      | none => rw [hq] at h; simp at h
      | some q =>
        rw [hq] at h
        simp only [Option.map_some', Option.some.injEq] at h
        obtain rfl : j = q + 1 := h.symm
        obtain ⟨g1, g2⟩ := ih hq
        refine ⟨by simpa [List.drop_succ_cons] using g1, ?_⟩
        intro k hk
        cases k with
        | zero => simpa using hp
        | succ m =>
          simp only [List.drop_succ_cons]
          exact g2 m (by omega)

theorem findSub_none_iff {sub l : List Char} (h : sub ≠ [] ∨ l ≠ []) :
    findSub sub l = none ↔ ∀ j, ¬ sub.isPrefixOf (l.drop j) = true := by
  induction l with
  | nil =>
    have hsub : sub ≠ [] := by
      rcases h with h | h
      · exact h
      · exact absurd rfl h
    simp only [findSub]
    constructor
    · intro _ j hp
      have hle := (isPrefixOf_eq_true_iff.mp hp).length_le
      simp only [List.drop_nil, List.length_nil, Nat.le_zero] at hle
      exact hsub (List.length_eq_zero.mp hle)
    · intro _
      trivial
  | cons c cs ih =>
    rw [findSub_cons]
    split
    · rename_i hp
      constructor
      · intro hcontra
        simp at hcontra
      · intro hall
        exact absurd (hall 0 hp) (fun x => x)
    · rename_i hp
      have hsub : sub ≠ [] := by
        intro he
        subst he
        exact hp rfl
      rw [Option.map_eq_none', ih (Or.inl hsub)]
      constructor
      · intro hall j
        cases j with
        | zero => exact hp
        | succ k =>
          simp only [List.drop_succ_cons]
          exact hall k
      · intro hall k
        simpa [List.drop_succ_cons] using hall (k + 1)

theorem take_until_eq (sub : List Char) (s : ParseState) :
    take_until sub s =
      match findSub sub s.rest with
      | some j => IResult.Done (s.advance j) (s.rest.take j)
      | none => IResult.Error := by
  unfold take_until
  rw [tuScan_findSub]
  split
  · rename_i hlen
    cases hfs : findSub sub s.rest with
    | none => rfl
    | some j =>
      exfalso
      have := findSub_some_le hfs
      simp only [ParseState.len] at hlen
      omega
  · rfl

/-- C9: `ParseState::advance(n)` panics (assertion failure) if and only if
`n` exceeds the remaining length; under the precondition `n ≤ remaining`
the assertion never fires and the result is a new cursor over the same
buffer at offset `n + index`.  The panic is modelled by `advanceChecked`
returning `none`, which is not an `IResult` and so is never a parse
`Failure`.  The hypothesis is the cursor well-formedness invariant of
spec §3 (`offset ∈ [0, length]`). -/
theorem c9_advance_assertion (s : ParseState) (n : Nat)
    (hwf : s.index ≤ s.input.length) :
    (s.advanceChecked n = none ↔ s.len < n) ∧
    (n ≤ s.len → s.advanceChecked n = some ⟨s.input, n + s.index⟩) := by
  have hl : s.len = s.input.length - s.index := len_eq s
  constructor
  · constructor
    · intro h
      by_cases hc : n + s.index ≤ s.input.length
      · rw [ParseState.advanceChecked, if_pos hc] at h
        simp at h
      · omega
    · intro h
      rw [ParseState.advanceChecked, if_neg (by omega)]
  · intro h
    rw [ParseState.advanceChecked, if_pos (by omega)]
    rfl

theorem c9_advance_assertion_witness :
    (ParseState.mk ['a'] 0).advanceChecked 1 = some ⟨['a'], 1⟩ ∧
    (ParseState.mk ['a'] 0).advanceChecked 2 = none :=
  ⟨(c9_advance_assertion ⟨['a'], 0⟩ 1 (by decide)).2 (by decide),
   (c9_advance_assertion ⟨['a'], 0⟩ 2 (by decide)).1.mpr (by decide)⟩

/-- C10: on a cursor with empty remaining input, `many0 f` returns
`Done` with the unchanged cursor and the empty list for *every* inner
combinator `f` (so `f` is never consulted, and the non-advancement guard
cannot produce `Error` on empty input, even for a combinator such as
`value` that succeeds without consuming). -/
theorem c10_many0_empty_input {α : Type} (f : Combinator α) (s : ParseState)
    (h : s.is_empty = true) : many0 f s = IResult.Done s [] := by
  unfold many0
  simp [many0F, h]

theorem c10_many0_empty_input_witness :
    many0 (value (0 : Nat)) ⟨[], 0⟩ = IResult.Done ⟨[], 0⟩ [] :=
  c10_many0_empty_input (value 0) ⟨[], 0⟩ (by decide)

/-- C6: `tag t` succeeds iff the remaining input starts with `t`; on
success the cursor is advanced by `t.length` and the value is both the
literal and the matched prefix slice of the remaining input; otherwise
it returns `Error`, which carries no cursor.  Concretely, `tag "fn"` on
`"fn foo"` yields the value `"fn"` with remaining input `" foo"`, and on
`"struct foo"` fails. -/
theorem c6_tag_characterization :
    (∀ (t : List Char) (s i : ParseState) (o : List Char),
        tag t s = IResult.Done i o →
        t.isPrefixOf s.rest = true ∧ i = s.advance t.length ∧
          o = t ∧ o = s.rest.take t.length) ∧
    (∀ (t : List Char) (s : ParseState), t.isPrefixOf s.rest = true →
        tag t s = IResult.Done (s.advance t.length) (s.rest.take t.length)) ∧
    (∀ (t : List Char) (s : ParseState), t.isPrefixOf s.rest = false →
        tag t s = IResult.Error) ∧
    (tag "fn".toList ⟨"fn foo".toList, 0⟩ =
        IResult.Done ⟨"fn foo".toList, 2⟩ "fn".toList ∧
      (ParseState.mk "fn foo".toList 2).rest = " foo".toList) ∧
    (tag "fn".toList ⟨"struct foo".toList, 0⟩ = IResult.Error) := by
  refine ⟨?_, ?_, ?_, by decide, by decide⟩
  · intro t s i o h
    unfold tag at h
    split at h
    · rename_i hp
      cases h
      have ht : t = s.rest.take t.length :=
        take_of_isPrefixOf hp
      exact ⟨hp, rfl, ht.symm, rfl⟩
    · simp at h
  · intro t s hp
    unfold tag
    rw [if_pos (show s.starts_with t = true from hp)]
    rfl
  · intro t s hp
    unfold tag
    rw [if_neg (by simp [ParseState.starts_with, hp])]

theorem c6_tag_characterization_witness :
    tag ['f', 'n'] ⟨"fn x".toList, 0⟩ =
      IResult.Done ((ParseState.mk "fn x".toList 0).advance 2)
        ("fn x".toList.take 2) :=
  c6_tag_characterization.2.1 ['f', 'n'] ⟨"fn x".toList, 0⟩ (by decide)

/-- C3: `alt` is left-biased ordered choice: alternatives are tried on
the same original cursor strictly left to right; if all alternatives
before `f` fail and `f` succeeds, the overall result is exactly `f`'s
result on the original cursor (with a branch's transform applied when
the branch carries one, modelled by `map`); `alt` fails iff every
alternative fails. -/
theorem c3_alt_left_biased {α β : Type} :
    (∀ (gs post : List (Combinator α)) (f : Combinator α) (s i : ParseState) (o : α),
        (∀ g ∈ gs, g s = IResult.Error) → f s = IResult.Done i o →
        altList (gs ++ f :: post) s = f s) ∧
    (∀ (fs : List (Combinator α)) (s : ParseState),
        altList fs s = IResult.Error ↔ ∀ f ∈ fs, f s = IResult.Error) ∧
    (∀ (g : Combinator β) (tr : β → α) (post : List (Combinator α))
        (s i : ParseState) (o : β),
        g s = IResult.Done i o →
        altList (map g tr :: post) s = IResult.Done i (tr o)) := by
  refine ⟨?_, ?_, ?_⟩
  · intro gs post f s i o hgs hf
    induction gs with
    | nil => simp [altList, hf]
    | cons g gs ih =>
      rw [List.cons_append]
      simp only [altList]
      rw [hgs g (List.mem_cons_self g gs)]
      exact ih (fun g' hg' => hgs g' (List.mem_cons_of_mem g hg'))
  · intro fs s
    induction fs with
    | nil => simp [altList]
    | cons f fs ih =>
      simp only [altList]
      cases hf : f s with
      | Done i o => simp [hf]
      | Error => simp [hf, ih]
  · intro g tr post s i o hg
    simp [altList, map, hg]

theorem c3_alt_left_biased_witness :
    altList [tag ['b'], tag ['a'], value ([] : List Char)] ⟨['a'], 0⟩ =
      tag ['a'] ⟨['a'], 0⟩ :=
  (@c3_alt_left_biased (List Char) (List Char)).1
    [tag ['b']] [value []] (tag ['a']) ⟨['a'], 0⟩ ⟨['a'], 1⟩ ['a']
    (by intro g hg
        rw [List.mem_singleton] at hg
        subst hg
        decide)
    (by decide)

/-- C1 (amended): for every inner combinator whose successes never
enlarge the remaining input — which covers every combinator of this
library, cf. the monotonicity results — `many0` terminates: fuel
`len + 1` always suffices (each continuing iteration strictly shrinks
the remaining length); and whenever an iteration's inner parse succeeds
with a next cursor of unchanged remaining length, the whole `many0`
returns `Error` rather than looping. -/
theorem c1_many0_termination {α : Type} (f : Combinator α)
    (hf : ∀ s i o, f s = IResult.Done i o → i.len ≤ s.len) :
    (∀ s : ParseState, (many0F f (s.len + 1) s []).isSome = true) ∧
    (∀ (fuel : Nat) (input : ParseState) (res : List α) (i : ParseState) (o : α),
        input.is_empty = false → f input = IResult.Done i o → i.len = input.len →
        many0F f (fuel + 1) input res = some IResult.Error) ∧
    (∀ (s i : ParseState) (o : α),
        s.is_empty = false → f s = IResult.Done i o → i.len = s.len →
        many0 f s = IResult.Error) := by
  refine ⟨?_, ?_, ?_⟩
  · intro s
    exact many0F_isSome hf (s.len + 1) s [] (Nat.lt_succ_self _)
  · intro fuel input res i o hne hdone hlen
    simp [many0F, hne, hdone, hlen]
  · intro s i o hne hdone hlen
    unfold many0
    simp [many0F, hne, hdone, hlen]

theorem c1_many0_termination_witness :
    (many0F (value (0 : Nat)) ((ParseState.mk ['a'] 0).len + 1) ⟨['a'], 0⟩ []).isSome
      = true :=
  (c1_many0_termination (value 0)
    (by intro s i o h
        simp only [value, IResult.Done.injEq] at h
        obtain ⟨rfl, rfl⟩ := h
        exact Nat.le_refl _)).1 ⟨['a'], 0⟩

theorem cyc_many0F_none :
    ∀ (n : Nat) (res : List Unit),
      many0F cycF n ⟨['a'], 0⟩ res = none ∧
        many0F cycF n ⟨['a', 'b'], 0⟩ res = none := by
  intro n
  induction n with
  | zero => intro res; exact ⟨rfl, rfl⟩
  | succ m ih =>
    intro res
    exact ⟨(ih (res ++ [()])).2, (ih (res ++ [()])).1⟩

/-- C1 counterexample: `many0` does *not* terminate for every inner
combinator: `cycF` alternates between two buffers whose remaining
lengths differ, so the non-advancement guard never fires and no amount
of fuel makes the loop finish — the Rust loop runs forever on it. -/
theorem c1_counterexample :
    ¬ ∀ (f : Combinator Unit) (s : ParseState),
        ∃ n : Nat, (many0F f n s []).isSome = true := by
  intro h
  obtain ⟨n, hn⟩ := h cycF ⟨['a'], 0⟩
  rw [(cyc_many0F_none n []).1] at hn
  simp at hn

/-- C4 counterexample: the very first `item` application succeeds (a
non-advancing `value`) on a non-empty cursor, yet
`separated_nonempty_list` returns `Error` — refuting "Failure only when
the very first item fails". -/
theorem c4_counterexample :
    value (0 : Nat) ⟨['a'], 0⟩ = IResult.Done ⟨['a'], 0⟩ 0 ∧
    separated_nonempty_list (tag [',']) (value (0 : Nat)) ⟨['a'], 0⟩ =
      IResult.Error :=
  ⟨rfl, rfl⟩

/-- C4 (amended): for monotone `sep` and `item`,
`separated_nonempty_list sep item` returns `Failure` exactly when the
very first application of `item` on the original cursor fails *or
succeeds without advancing*; in every other case the overall result is
a `Success`. -/
theorem c4_sep_list_error_iff {α β : Type} (sep : Combinator β) (item2 : Combinator α)
    (hsep : Mono sep) (hitem : Mono item2) (s : ParseState) :
    separated_nonempty_list sep item2 s = IResult.Error ↔
      (item2 s = IResult.Error ∨
        ∃ i o, item2 s = IResult.Done i o ∧ i.len = s.len) := by
  cases hi : item2 s with
  | Error =>
    have hL : separated_nonempty_list sep item2 s = IResult.Error := by
      unfold separated_nonempty_list separated_nonempty_listF
      rw [hi]
      rfl
    simp [hL]
  | Done i1 o1 =>
    have hL : separated_nonempty_list sep item2 s =
        (if i1.len = s.len then some IResult.Error
          else (sepLoop sep item2 (s.len + 1) i1 [o1]).map
            fun r => IResult.Done r.1 r.2).getD IResult.Error := by
      unfold separated_nonempty_list separated_nonempty_listF
      rw [hi]
    by_cases hlen : i1.len = s.len
    · rw [hL, if_pos hlen]
      exact iff_of_true rfl (Or.inr ⟨i1, o1, rfl, hlen⟩)
    · rw [hL, if_neg hlen]
      have hS := sepLoop_isSome hsep hitem (s.len + 1) i1 [o1]
        (by have := (hitem _ _ _ hi).2; omega)
      obtain ⟨⟨i2, res2⟩, hsl⟩ := Option.isSome_iff_exists.mp hS
      rw [hsl]
      simp only [Option.map_some', Option.getD_some]
      constructor
      · intro hcontra
        simp at hcontra
      · rintro (he | ⟨i', o', hd, hl⟩)
        · simp at he
        · simp only [IResult.Done.injEq] at hd
          obtain ⟨rfl, rfl⟩ := hd
          exact absurd hl hlen

theorem c4_sep_list_error_iff_witness :
    separated_nonempty_list (tag [',']) (tag ['a']) ⟨['b'], 0⟩ = IResult.Error :=
  (c4_sep_list_error_iff (tag [',']) (tag ['a']) (mono_tag [',']) (mono_tag ['a'])
    ⟨['b'], 0⟩).mpr (Or.inl (by decide))

theorem sepLoop_rollback {α β : Type} (sep : Combinator β) (item2 : Combinator α)
    (fuel : Nat) (input : ParseState) (res : List α) (i2 : ParseState) (b : β)
    (hsepeq : sep input = IResult.Done i2 b)
    (hrest : item2 i2 = IResult.Error ∨
      ∃ i3 o3, item2 i2 = IResult.Done i3 o3 ∧ i3.len = i2.len) :
    sepLoop sep item2 (fuel + 1) input res = some (input, res) := by
  simp only [sepLoop, hsepeq]
  by_cases h2 : i2.len = input.len
  · rw [if_pos h2]
  · rw [if_neg h2]
    rcases hrest with he | ⟨i3, o3, hd, hl⟩
    · rw [he]
    · simp only [hd]
      rw [if_pos hl]

/-- C5: whenever `separated_nonempty_list` succeeds the returned list is
non-empty; and when, after the last collected item, the separator
matches but the following item fails or does not advance, the loop
returns the cursor from before that separator attempt, leaving the
trailing separator unconsumed — stated both for the loop (`sepLoop`)
and, for the one-item instance, for `separated_nonempty_list` itself. -/
theorem c5_sep_list_nonempty_rollback {α β : Type} :
    (∀ (sep : Combinator β) (item2 : Combinator α) (s i : ParseState) (res : List α),
        separated_nonempty_list sep item2 s = IResult.Done i res → res ≠ []) ∧
    (∀ (sep : Combinator β) (item2 : Combinator α) (fuel : Nat) (input : ParseState)
        (res : List α) (i2 : ParseState) (b : β),
        sep input = IResult.Done i2 b →
        (item2 i2 = IResult.Error ∨
          ∃ i3 o3, item2 i2 = IResult.Done i3 o3 ∧ i3.len = i2.len) →
        sepLoop sep item2 (fuel + 1) input res = some (input, res)) ∧
    (∀ (sep : Combinator β) (item2 : Combinator α) (s i : ParseState) (o : α)
        (i2 : ParseState) (b : β),
        item2 s = IResult.Done i o → ¬ i.len = s.len →
        sep i = IResult.Done i2 b →
        (item2 i2 = IResult.Error ∨
          ∃ i3 o3, item2 i2 = IResult.Done i3 o3 ∧ i3.len = i2.len) →
        separated_nonempty_list sep item2 s = IResult.Done i [o]) := by
  refine ⟨?_, fun sep item2 fuel input res i2 b h1 h2 =>
      sepLoop_rollback sep item2 fuel input res i2 b h1 h2, ?_⟩
  · intro sep item2 s i res h
    unfold separated_nonempty_list separated_nonempty_listF at h
    split at h
    · simp at h
    · rename_i i1 o1 heq
      split at h
      · simp at h
      · cases hm : sepLoop sep item2 (s.len + 1) i1 [o1] with
        | none => rw [hm] at h; simp at h
        | some r =>
          rw [hm] at h
          simp only [Option.map_some', Option.getD_some] at h
          cases h
          have hlen := sepLoop_some_length (s.len + 1) i1 [o1] r.1 r.2 hm
          intro he
          rw [he] at hlen
          simp at hlen
  · intro sep item2 s i o i2 b hitem hne hsep2 hrest
    unfold separated_nonempty_list separated_nonempty_listF
    rw [hitem]
    simp only
    rw [if_neg hne, sepLoop_rollback sep item2 s.len i [o] i2 b hsep2 hrest]
    rfl

theorem c5_sep_list_nonempty_rollback_witness :
    separated_nonempty_list (tag [',']) (tag ['a']) ⟨['a', ','], 0⟩ =
      IResult.Done ⟨['a', ','], 1⟩ [['a']] :=
  (@c5_sep_list_nonempty_rollback (List Char) (List Char)).2.2
    (tag [',']) (tag ['a']) ⟨['a', ','], 0⟩ ⟨['a', ','], 1⟩ ['a'] ⟨['a', ','], 2⟩ [',']
    (by decide) (by decide) (by decide) (Or.inl (by decide))

/-- C2: monotonic advancement — each primitive combinator (`tag`,
`take_while1`, `take_until`, `not`, `peek`, `value`) satisfies it
outright, and each combinator former (`cond`, `many0`,
`separated_nonempty_list`, `tuple`, `alt`, `preceded`, `terminated`,
`delimited`) preserves it: whenever the combinator succeeds, the
resulting cursor's offset is ≥ the input's and its remaining length is
≤ the input's. -/
theorem c2_monotone_advancement {α β γ : Type} :
    (∀ t : List Char, Mono (tag t)) ∧
    (∀ p : Char → Bool, Mono (take_while1 p)) ∧
    (∀ t : List Char, Mono (take_until t)) ∧
    (∀ f : Combinator α, Mono (not f)) ∧
    (∀ f : Combinator α, Mono (peek f)) ∧
    (∀ (c : Bool) (f : Combinator α), Mono f → Mono (cond c f)) ∧
    (∀ v : α, Mono (value v)) ∧
    (∀ f : Combinator α, Mono f → Mono (many0 f)) ∧
    (∀ (sep : Combinator β) (f : Combinator α), Mono sep → Mono f →
        Mono (separated_nonempty_list sep f)) ∧
    (∀ (f : Combinator α) (g : Combinator β), Mono f → Mono g → Mono (tuple2 f g)) ∧
    (∀ fs : List (Combinator α), (∀ f ∈ fs, Mono f) → Mono (altList fs)) ∧
    (∀ (f : Combinator α) (g : Combinator β), Mono f → Mono g → Mono (preceded f g)) ∧
    (∀ (f : Combinator α) (g : Combinator β), Mono f → Mono g → Mono (terminated f g)) ∧
    (∀ (f : Combinator α) (g : Combinator β) (h : Combinator γ),
        Mono f → Mono g → Mono h → Mono (delimited f g h)) :=
  ⟨mono_tag, mono_take_while1, mono_take_until, mono_not, mono_peek,
   mono_cond, mono_value, fun _ hf => mono_many0 hf,
   fun _ _ hs hf => mono_separated_nonempty_list hs hf,
   fun _ _ hf hg => mono_tuple2 hf hg,
   fun _ h => mono_altList h,
   fun _ _ hf hg => mono_preceded hf hg,
   fun _ _ hf hg => mono_terminated hf hg,
   fun _ _ _ hf hg hh => mono_delimited hf hg hh⟩

theorem c2_monotone_advancement_witness :
    Mono (many0 (tag ['a'])) :=
  (@c2_monotone_advancement (List Char) Unit Unit).2.2.2.2.2.2.2.1 (tag ['a'])
    (mono_tag ['a'])

theorem take_until_eq_some {sub : List Char} {s : ParseState} {j : Nat}
    (h : findSub sub s.rest = some j) :
    take_until sub s = IResult.Done (s.advance j) (s.rest.take j) := by
  rw [take_until_eq, h]

theorem take_until_eq_none {sub : List Char} {s : ParseState}
    (h : findSub sub s.rest = none) :
    take_until sub s = IResult.Error := by
  rw [take_until_eq, h]

/-- C7 (amended): except in the degenerate case where both the literal
and the remaining input are empty (where the scan loop never runs and
the result is `Error`), `take_until lit` succeeds iff `lit` occurs in
the remaining input, in which case the value is the slice strictly
before the first occurrence and the cursor is advanced to the start of
that occurrence, leaving the literal unconsumed; it fails when the
literal does not occur, in particular whenever the literal is longer
than the remaining input. -/
theorem c7_take_until_characterization (sub : List Char) (s : ParseState)
    (h : ¬ (sub = [] ∧ s.rest = [])) :
    (∀ (i : ParseState) (o : List Char),
        take_until sub s = IResult.Done i o →
        ∃ j, i = s.advance j ∧ o = s.rest.take j ∧
          sub.isPrefixOf (s.rest.drop j) = true ∧
          ∀ k, k < j → ¬ sub.isPrefixOf (s.rest.drop k) = true) ∧
    (take_until sub s = IResult.Error ↔
        ∀ j, ¬ sub.isPrefixOf (s.rest.drop j) = true) ∧
    (s.rest.length < sub.length → take_until sub s = IResult.Error) := by
  have hor : sub ≠ [] ∨ s.rest ≠ [] := by
    by_cases h1 : sub = []
    · exact Or.inr (fun h2 => h ⟨h1, h2⟩)
    · exact Or.inl h1
  refine ⟨?_, ?_, ?_⟩
  · intro i o hdone
    cases hfs : findSub sub s.rest with
    | none =>
      rw [take_until_eq_none hfs] at hdone
      simp at hdone
    | some j =>
      rw [take_until_eq_some hfs] at hdone
      cases hdone
      obtain ⟨g1, g2⟩ := findSub_some_correct hfs
      exact ⟨j, rfl, rfl, g1, g2⟩
  · cases hfs : findSub sub s.rest with
    | none =>
      rw [take_until_eq_none hfs]
      exact iff_of_true rfl ((findSub_none_iff hor).mp hfs)
    | some j =>
      rw [take_until_eq_some hfs]
      obtain ⟨g1, _⟩ := findSub_some_correct hfs
      constructor
      · intro hcontra
        simp at hcontra
      · intro hall
        exact absurd g1 (hall j)
  · intro hlen
    cases hfs : findSub sub s.rest with
    | none => exact take_until_eq_none hfs
    | some j =>
      exfalso
      have := findSub_some_le hfs
      omega

/-- C7 counterexample: with an empty literal and an empty remaining
input the literal does occur in the remainder (it is a prefix of it)
and is not longer than it, yet `take_until` returns `Error`. -/
theorem c7_counterexample :
    take_until ([] : List Char) ⟨[], 0⟩ = IResult.Error ∧
    ([] : List Char).isPrefixOf (ParseState.rest ⟨[], 0⟩) = true ∧
    ¬ (ParseState.rest (⟨[], 0⟩ : ParseState)).length < ([] : List Char).length :=
  ⟨by decide, by decide, by decide⟩

theorem c7_take_until_characterization_witness :
    ∃ j, ParseState.mk "1 + 1 ## rest".toList 6 =
          (ParseState.mk "1 + 1 ## rest".toList 0).advance j ∧
        "1 + 1 ".toList = (ParseState.mk "1 + 1 ## rest".toList 0).rest.take j ∧
        "##".toList.isPrefixOf
            ((ParseState.mk "1 + 1 ## rest".toList 0).rest.drop j) = true ∧
        ∀ k, k < j → ¬ "##".toList.isPrefixOf
            ((ParseState.mk "1 + 1 ## rest".toList 0).rest.drop k) = true :=
  (c7_take_until_characterization "##".toList ⟨"1 + 1 ## rest".toList, 0⟩
      (by decide)).1
    ⟨"1 + 1 ## rest".toList, 6⟩ "1 + 1 ".toList (by decide)

/-- C8: `expect name` on a `Done` result first skips trailing
whitespace/comments and returns the parsed value only when the skipped
cursor is fully consumed; otherwise it aborts with a fatal error naming
the parser and the unparsed remainder; on `Error` it aborts with a
fatal error naming the parser.  The panic is modelled as `Except.error`
with a structured message, so trailing input or failure is never turned
into a normal return.  Concretely, parsing `"a b"` with `tag "a"` and
`expect` aborts naming the remainder `"b"`. -/
theorem c8_expect_contract {α : Type} :
    (∀ (r : IResult α) (name : List Char) (v : α),
        r.expect name = Except.ok v →
        ∃ rest, r = IResult.Done rest v ∧ (skip_whitespace rest).is_empty = true) ∧
    (∀ (rest : ParseState) (o : α) (name : List Char),
        (skip_whitespace rest).is_empty = true →
        (IResult.Done rest o).expect name = Except.ok o) ∧
    (∀ (rest : ParseState) (o : α) (name : List Char),
        (skip_whitespace rest).is_empty = false →
        (IResult.Done rest o).expect name =
          Except.error
            (ParsePanic.unparsedTokensAfter name (skip_whitespace rest).rest)) ∧
    (∀ name : List Char,
        (IResult.Error : IResult α).expect name =
          Except.error (ParsePanic.failedToParse name)) ∧
    (IResult.expect (tag ['a'] ⟨"a b".toList, 0⟩) ['A'] =
        Except.error (ParsePanic.unparsedTokensAfter ['A'] ['b'])) := by
  have hDone : ∀ (rest : ParseState) (o : α) (name : List Char),
      IResult.expect (IResult.Done rest o) name =
        (if (skip_whitespace rest).is_empty = true then Except.ok o
         else Except.error
           (ParsePanic.unparsedTokensAfter name (skip_whitespace rest).rest)) :=
    fun _ _ _ => rfl
  refine ⟨?_, ?_, ?_, fun name => rfl, by rfl⟩
  · intro r name v h
    cases r with
    | Error =>
      rw [show IResult.expect (IResult.Error : IResult α) name =
            Except.error (ParsePanic.failedToParse name) from rfl] at h
      exact Except.noConfusion h
    | Done rest o =>
      rw [hDone] at h
      by_cases hemp : (skip_whitespace rest).is_empty = true
      · rw [if_pos hemp] at h
        simp only [Except.ok.injEq] at h
        obtain rfl : o = v := h
        exact ⟨rest, rfl, hemp⟩
      · rw [if_neg hemp] at h
        exact Except.noConfusion h
  · intro rest o name hemp
    rw [hDone, if_pos hemp]
  · intro rest o name hemp
    rw [hDone, if_neg (by simp [hemp])]

theorem c8_expect_contract_witness :
    (IResult.Done (ParseState.mk "a ".toList 1) (5 : Nat)).expect ['N'] =
      Except.ok 5 :=
  (@c8_expect_contract Nat).2.1 ⟨"a ".toList, 1⟩ 5 ['N'] (by decide)

end Synom
